import Mathlib

/-!
Shallow embedding of src/input.py, a single-line terminal reader with a
shared history list.

Strings are modelled as lists of characters, Python integers as Int.
State fields and operations keep the names of the source where Lean
allows it.  The terminal output side effects (prompt echo, line redraw,
hex debug printing) are dropped from the state transitions, except for
the pure output of the cursor-motion primitive, which is modelled as the
string it prints.  The fields prompt and debug only affect that dropped
output, so they are not part of the state.
-/

/-- ESC, the escape introducer byte 0x1B (source constant ESCAPE). -/
def ESCAPE : Char := '\x1B'

def UP : List Char := ['\x1B', '[', 'A']

def DOWN : List Char := ['\x1B', '[', 'B']

def RIGHT : List Char := ['\x1B', '[', 'C']

def LEFT : List Char := ['\x1B', '[', 'D']

def DELETE : List Char := ['\x1B', '[', '3', '~']

def BACKSPACE : List Char := ['\x7F']

def INTERRUPT : List Char := ['\x03']

def EOF : List Char := ['\x04']

/-- The carriage return byte, the loop terminator in read. -/
def CR : List Char := ['\x0D']

/-- Character class of the one-character alternative of the source regex
ESCAPE_SEQ, the set written 0x40 to 0x5A and 0x5C to 0x5F there. -/
def isSingleEsc (c : Char) : Bool :=
  ('\x40' ≤ c && c ≤ '\x5A') || ('\x5C' ≤ c && c ≤ '\x5F')

/-- CSI parameter bytes, 0x30 to 0x3F. -/
def isParamByte (c : Char) : Bool := '\x30' ≤ c && c ≤ '\x3F'

/-- CSI intermediate bytes, 0x20 to 0x2F. -/
def isInterByte (c : Char) : Bool := '\x20' ≤ c && c ≤ '\x2F'

/-- CSI final bytes, 0x40 to 0x7E. -/
def isFinalByte (c : Char) : Bool := '\x40' ≤ c && c ≤ '\x7E'

/-- Body of the bracketed alternative of ESCAPE_SEQ: parameter bytes,
then intermediate bytes, then exactly one final byte.  The three classes
are pairwise disjoint, so greedy scanning equals the regex semantics. -/
def csiTail (body : List Char) : Bool :=
  match (body.dropWhile isParamByte).dropWhile isInterByte with
  | [f] => isFinalByte f
  | _ => false

/-- Full match of the anchored source regex ESCAPE_SEQ against k. -/
def escSeqFull (k : List Char) : Bool :=
  match k with
  | [e, c] => e = ESCAPE && isSingleEsc c
  | e :: '[' :: body => e = ESCAPE && csiTail body
  | _ => false

/-- Accumulation loop of the source _getKey: keep appending one input
character to k until ESCAPE_SEQ matches; none models the source blocking
forever because the input is exhausted. -/
def getKeyAux : List Char → List Char → Option (List Char × List Char)
  | k, [] => if escSeqFull k then some (k, []) else none
  | k, c :: rest =>
    if escSeqFull k then some (k, c :: rest) else getKeyAux (k ++ [c]) rest

/-- The source _getKey: read one character; if it is ESC, accumulate
until the escape-sequence regex matches.  Returns the key string and the
unconsumed input. -/
def getKey : List Char → Option (List Char × List Char)
  | [] => none
  | c :: rest => if c = ESCAPE then getKeyAux [c] rest else some ([c], rest)

/-- The source _bound with both bounds supplied, which is how both call
sites use it: clamp val into the closed interval. -/
def _bound (val lowerBound upperBound : Int) : Int :=
  min (max val lowerBound) upperBound

/-- Python list indexing as used by the source: a nonnegative index from
the front, a negative index from the back.  In the source every use is
in range (sessions always hold at least one line); the default value is
only for totality. -/
def pyGet (xs : List (List Char)) (i : Int) : List Char :=
  if 0 ≤ i then xs.getD i.toNat [] else xs.getD (xs.length + i).toNat []

/-- Python assignment lines with index -1, that is, replace the last
element.  On an empty list the source would raise, which is unreachable
because a session always holds at least one line. -/
def setLast (xs : List (List Char)) (v : List Char) : List (List Char) :=
  xs.dropLast ++ [v]

/-- State of the source class _SingleLineReader: the shared history
lines, the line being edited, the active history index lineIdx, the
cursor index charIdx, and the single-use flag used. -/
structure ReaderState where
  lines : List (List Char)
  line : List Char
  lineIdx : Int
  charIdx : Int
  used : Bool

deriving instance DecidableEq for ReaderState

deriving instance Repr for ReaderState

/-- Constructor of _SingleLineReader: append a fresh empty line to the
shared history and point lineIdx at it. -/
def initReader (pastLines : List (List Char)) : ReaderState :=
  { lines := pastLines ++ [[]]
    line := []
    lineIdx := (pastLines.length : Int)
    charIdx := 0
    used := false }

/-- Source method moveLineDown: clamp the active index, load that
history entry into the buffer, cursor to end of line. -/
def moveLineDown (s : ReaderState) (distDown : Int) : ReaderState :=
  let lineIdx := _bound (s.lineIdx + distDown) 0 ((s.lines.length : Int) - 1)
  let line := pyGet s.lines lineIdx
  { s with lineIdx := lineIdx, line := line, charIdx := (line.length : Int) }

/-- Source method moveCharRight: clamp the cursor into the line. -/
def moveCharRight (s : ReaderState) (distRight : Int) : ReaderState :=
  { s with charIdx := _bound (s.charIdx + distRight) 0 (s.line.length : Int) }

/-- Source method doBackspace: remove the character left of the cursor
when the cursor is positive.  The guard keeps the slice indices
nonnegative, so toNat conversion agrees with Python slicing. -/
def doBackspace (s : ReaderState) : ReaderState :=
  if 0 < s.charIdx then
    { s with
        line := s.line.take (s.charIdx - 1).toNat ++ s.line.drop s.charIdx.toNat
        charIdx := s.charIdx - 1 }
  else s

/-- Source method doDelete: remove the character under the cursor when
the cursor is strictly inside the line. -/
def doDelete (s : ReaderState) : ReaderState :=
  if s.charIdx < (s.line.length : Int) then
    { s with line := s.line.take s.charIdx.toNat ++ s.line.drop (s.charIdx + 1).toNat }
  else s

/-- Source method insertChar: splice the key string at the cursor and
advance the cursor by one, unconditionally, exactly as the source. -/
def insertChar (s : ReaderState) (k : List Char) : ReaderState :=
  { s with
      line := s.line.take s.charIdx.toNat ++ k ++ s.line.drop s.charIdx.toNat
      charIdx := s.charIdx + 1 }

/-- Source line 113: lines with index -1 assigned the buffer, run after
every non-arrow editing key. -/
def syncLast (s : ReaderState) : ReaderState :=
  { s with lines := setLast s.lines s.line }

/-- Logical key events, the tags the read loop dispatches on. -/
inductive Key where
  | enter
  | up
  | down
  | left
  | right
  | backspace
  | delete
  | interrupt
  | endOfInput
  | unknownEscape (raw : List Char)
  | printable (k : List Char)

deriving instance DecidableEq for Key

deriving instance Repr for Key

/-- The chain of comparisons the read loop applies to a decoded key
string, in source order: the loop condition against CR first, then the
arrow keys, then the elif chain of the loop body. -/
def classifyKey (k : List Char) : Key :=
  if k = CR then .enter
  else if k = UP then .up
  else if k = DOWN then .down
  else if k = LEFT then .left
  else if k = RIGHT then .right
  else if k = BACKSPACE then .backspace
  else if k = DELETE then .delete
  else if k = INTERRUPT then .interrupt
  else if k = EOF then .endOfInput
  else if k.head? = some ESCAPE then .unknownEscape k
  else .printable k

/-- Outcome of one read session.  The source raises KeyboardInterrupt,
EOFError, and two Exception values; these become the tagged error
results.  blocked models the source blocking forever on exhausted
input. -/
inductive ReadResult where
  | accepted (l : List Char) (s : ReaderState)
  | interrupted (s : ReaderState)
  | endOfInput (s : ReaderState)
  | unknownEscape (raw : List Char) (s : ReaderState)
  | usageError (s : ReaderState)
  | blocked (s : ReaderState)

deriving instance DecidableEq for ReadResult

deriving instance Repr for ReadResult

/-- Result of dispatching one key: either the loop continues in a new
state, or the session halts with a result. -/
inductive StepResult where
  | cont (s : ReaderState)
  | halt (r : ReadResult)

deriving instance DecidableEq for StepResult

deriving instance Repr for StepResult

/-- One iteration of the read loop on an already-classified key, exactly
the source dispatch: arrows mutate without touching the history; the
editing keys mutate and then run line 113 (syncLast); interrupt,
end-of-input and unknown escapes raise before line 113; CR leaves the
loop, runs line 114 (the same sync) and returns the buffer. -/
def keyStep (s : ReaderState) (k : Key) : StepResult :=
  match k with
  | .enter => .halt (.accepted (syncLast s).line (syncLast s))
  | .up => .cont (moveLineDown s (-1))
  | .down => .cont (moveLineDown s 1)
  | .left => .cont (moveCharRight s (-1))
  | .right => .cont (moveCharRight s 1)
  | .backspace => .cont (syncLast (doBackspace s))
  | .delete => .cont (syncLast (doDelete s))
  | .interrupt => .halt (.interrupted s)
  | .endOfInput => .halt (.endOfInput s)
  | .unknownEscape raw => .halt (.unknownEscape raw s)
  | .printable k => .cont (syncLast (insertChar s k))

/-- The read loop over a list of already-decoded key events.  Exhausting
the list without a halting key models the source blocking on the next
keystroke. -/
def runKeys : ReaderState → List Key → ReadResult
  | s, [] => .blocked s
  | s, k :: ks =>
    match keyStep s k with
    | .cont s₂ => runKeys s₂ ks
    | .halt r => r

/-- The read method at the key-event level: the _use check, then the
loop. -/
def readEvents (s : ReaderState) (ks : List Key) : ReadResult :=
  if s.used then .usageError s else runKeys { s with used := true } ks

theorem getKeyAux_length_le (acc input : List Char) {k rest : List Char}
    (h : getKeyAux acc input = some (k, rest)) : rest.length ≤ input.length := by
  induction input generalizing acc with
  | nil =>
    simp only [getKeyAux] at h
    split at h
    · cases h; simp
    · cases h
  | cons c cs ih =>
    simp only [getKeyAux] at h
    split at h
    · cases h; simp
    · exact (ih (acc ++ [c]) h).trans (by simp)

theorem getKey_length_lt {input k rest : List Char}
    (h : getKey input = some (k, rest)) : rest.length < input.length := by
  cases input with
  | nil => cases h
  | cons c cs =>
    simp only [getKey] at h
    split at h
    · exact Nat.lt_succ_of_le (getKeyAux_length_le [c] cs h)
    · cases h; simp

/-- The read loop over the raw input characters, exactly as the source:
pull one key with getKey, dispatch it.  none from getKey models the
source blocking forever. -/
def runChars (s : ReaderState) (input : List Char) : ReadResult :=
  match h : getKey input with
  | none => .blocked s
  | some (k, rest) =>
    match keyStep s (classifyKey k) with
    | .cont s₂ => runChars s₂ rest
    | .halt r => r
termination_by input.length
decreasing_by exact getKey_length_lt h

/-- The read method at the raw-character level: the _use check, then the
loop over the input characters. -/
def ReaderState.read (s : ReaderState) (input : List Char) : ReadResult :=
  if s.used then .usageError s else runChars { s with used := true } input

/-- The cursor-motion primitive _moveCursorRight, modelled as the string
it prints: CSI cursor-forward for a positive distance, CSI cursor-back
for a negative one, nothing for zero. -/
def _moveCursorRight (distRight : Int) : String :=
  if distRight > 0 then "\x1B[" ++ toString distRight ++ "C"
  else if distRight < 0 then "\x1B[" ++ toString (-distRight) ++ "D"
  else ""

/-- State carried by a read outcome (the reader object as the session
left it). -/
def resultState : ReadResult → ReaderState
  | .accepted _ s => s
  | .interrupted s => s
  | .endOfInput s => s
  | .unknownEscape _ s => s
  | .usageError s => s
  | .blocked s => s

/-- State after one dispatched key, whether the loop continued or
halted. -/
def stepState : StepResult → ReaderState
  | .cont s => s
  | .halt r => resultState r

/-- Keys that are well formed as decoder output: a printable key carries
at least one character (the decoder never returns an empty key). -/
def keyWF : Key → Bool
  | .printable c => !c.isEmpty
  | _ => true

/-- Keys on which the read loop continues editing rather than halting:
printables, backspace, delete and the four arrows. -/
def isEditKey : Key → Bool
  | .printable _ => true
  | .backspace => true
  | .delete => true
  | .up => true
  | .down => true
  | .left => true
  | .right => true
  | _ => false

@[simp]
theorem moveLineDown_lines (s : ReaderState) (d : Int) :
    (moveLineDown s d).lines = s.lines := rfl

@[simp]
theorem moveLineDown_used (s : ReaderState) (d : Int) :
    (moveLineDown s d).used = s.used := rfl

@[simp]
theorem moveCharRight_lines (s : ReaderState) (d : Int) :
    (moveCharRight s d).lines = s.lines := rfl

@[simp]
theorem moveCharRight_line (s : ReaderState) (d : Int) :
    (moveCharRight s d).line = s.line := rfl

@[simp]
theorem moveCharRight_used (s : ReaderState) (d : Int) :
    (moveCharRight s d).used = s.used := rfl

@[simp]
theorem doBackspace_lines (s : ReaderState) : (doBackspace s).lines = s.lines := by
  unfold doBackspace; split <;> rfl

@[simp]
theorem doBackspace_used (s : ReaderState) : (doBackspace s).used = s.used := by
  unfold doBackspace; split <;> rfl

@[simp]
theorem doDelete_lines (s : ReaderState) : (doDelete s).lines = s.lines := by
  unfold doDelete; split <;> rfl

@[simp]
theorem doDelete_used (s : ReaderState) : (doDelete s).used = s.used := by
  unfold doDelete; split <;> rfl

@[simp]
theorem insertChar_lines (s : ReaderState) (k : List Char) :
    (insertChar s k).lines = s.lines := rfl

@[simp]
theorem insertChar_used (s : ReaderState) (k : List Char) :
    (insertChar s k).used = s.used := rfl

@[simp]
theorem syncLast_lines (s : ReaderState) :
    (syncLast s).lines = s.lines.dropLast ++ [s.line] := rfl

@[simp]
theorem syncLast_line (s : ReaderState) : (syncLast s).line = s.line := rfl

@[simp]
theorem syncLast_charIdx (s : ReaderState) : (syncLast s).charIdx = s.charIdx := rfl

@[simp]
theorem syncLast_used (s : ReaderState) : (syncLast s).used = s.used := rfl

/-! ### Unfolding lemmas for the character-level loop -/

theorem runChars_of_none {s : ReaderState} {input : List Char}
    (h : getKey input = none) : runChars s input = .blocked s := by
  rw [runChars.eq_def]
  split
  · rfl
  · next k rest heq => rw [h] at heq; cases heq

theorem runChars_of_cont {s s₂ : ReaderState} {input : List Char} (k rest : List Char)
    (h : getKey input = some (k, rest))
    (h₂ : keyStep s (classifyKey k) = .cont s₂) :
    runChars s input = runChars s₂ rest := by
  rw [runChars.eq_def]
  split
  · next heq => rw [h] at heq; cases heq
  · next k₃ rest₃ heq =>
    rw [h] at heq
    injection heq with heq
    cases heq
    rw [h₂]

theorem runChars_of_halt {s : ReaderState} {input : List Char} (k rest : List Char)
    {r : ReadResult} (h : getKey input = some (k, rest))
    (h₂ : keyStep s (classifyKey k) = .halt r) :
    runChars s input = r := by
  rw [runChars.eq_def]
  split
  · next heq => rw [h] at heq; cases heq
  · next k₃ rest₃ heq =>
    rw [h] at heq
    injection heq with heq
    cases heq
    rw [h₂]

/-! ### Invariants of the key-event loop -/

theorem stepState_keyStep_lines (s : ReaderState) (k : Key) (h : s.lines ≠ []) :
    ∃ t, (stepState (keyStep s k)).lines = s.lines.dropLast ++ [t] := by
  have hsame : s.lines = s.lines.dropLast ++ [s.lines.getLast h] :=
    (List.dropLast_append_getLast h).symm
  cases k with
  | enter => exact ⟨s.line, by simp [keyStep, stepState, resultState, setLast]⟩
  | up => exact ⟨s.lines.getLast h, by simpa [keyStep, stepState] using hsame⟩
  | down => exact ⟨s.lines.getLast h, by simpa [keyStep, stepState] using hsame⟩
  | left => exact ⟨s.lines.getLast h, by simpa [keyStep, stepState] using hsame⟩
  | right => exact ⟨s.lines.getLast h, by simpa [keyStep, stepState] using hsame⟩
  | backspace => exact ⟨(doBackspace s).line, by simp [keyStep, stepState]⟩
  | delete => exact ⟨(doDelete s).line, by simp [keyStep, stepState]⟩
  | interrupt =>
    exact ⟨s.lines.getLast h, by simpa [keyStep, stepState, resultState] using hsame⟩
  | endOfInput =>
    exact ⟨s.lines.getLast h, by simpa [keyStep, stepState, resultState] using hsame⟩
  | unknownEscape raw =>
    exact ⟨s.lines.getLast h, by simpa [keyStep, stepState, resultState] using hsame⟩
  | printable c => exact ⟨(insertChar s c).line, by simp [keyStep, stepState]⟩

theorem stepState_keyStep_used (s : ReaderState) (k : Key) :
    (stepState (keyStep s k)).used = s.used := by
  cases k <;> simp [keyStep, stepState, resultState]

theorem runKeys_lines (ks : List Key) (s : ReaderState) (h : s.lines ≠ []) :
    ∃ t, (resultState (runKeys s ks)).lines = s.lines.dropLast ++ [t] := by
  induction ks generalizing s with
  | nil =>
    exact ⟨s.lines.getLast h, by
      simp [runKeys, resultState]
      exact (List.dropLast_append_getLast h).symm⟩
  | cons k ks ih =>
    obtain ⟨t, ht⟩ := stepState_keyStep_lines s k h
    cases hstep : keyStep s k with
    | cont s₂ =>
      have hs₂ : s₂.lines = s.lines.dropLast ++ [t] := by
        rw [hstep] at ht; exact ht
      have hne : s₂.lines ≠ [] := by rw [hs₂]; exact List.append_ne_nil_of_right_ne_nil _ (by simp)
      obtain ⟨t₂, ht₂⟩ := ih s₂ hne
      refine ⟨t₂, ?_⟩
      rw [show runKeys s (k :: ks) = runKeys s₂ ks from by rw [runKeys, hstep]]
      rw [ht₂, hs₂, List.dropLast_concat]
    | halt r =>
      refine ⟨t, ?_⟩
      rw [show runKeys s (k :: ks) = r from by rw [runKeys, hstep]]
      rw [hstep] at ht
      exact ht

theorem runKeys_used (ks : List Key) (s : ReaderState) :
    (resultState (runKeys s ks)).used = s.used := by
  induction ks generalizing s with
  | nil => rfl
  | cons k ks ih =>
    have h := stepState_keyStep_used s k
    cases hstep : keyStep s k with
    | cont s₂ =>
      rw [show runKeys s (k :: ks) = runKeys s₂ ks from by rw [runKeys, hstep]]
      rw [ih s₂]
      rw [hstep] at h
      exact h
    | halt r =>
      rw [show runKeys s (k :: ks) = r from by rw [runKeys, hstep]]
      rw [hstep] at h
      exact h

theorem stepState_keyStep_charIdx (s : ReaderState) (k : Key) (hwf : keyWF k = true)
    (h0 : 0 ≤ s.charIdx) (h1 : s.charIdx ≤ (s.line.length : Int)) :
    0 ≤ (stepState (keyStep s k)).charIdx ∧
      (stepState (keyStep s k)).charIdx ≤ ((stepState (keyStep s k)).line.length : Int) := by
  cases k with
  | enter => exact ⟨h0, h1⟩
  | up =>
    have e1 : (stepState (keyStep s Key.up)).charIdx
        = ((stepState (keyStep s Key.up)).line.length : Int) := rfl
    exact ⟨e1 ▸ Int.natCast_nonneg _, le_of_eq e1⟩
  | down =>
    have e1 : (stepState (keyStep s Key.down)).charIdx
        = ((stepState (keyStep s Key.down)).line.length : Int) := rfl
    exact ⟨e1 ▸ Int.natCast_nonneg _, le_of_eq e1⟩
  | left =>
    have e1 : (stepState (keyStep s Key.left)).charIdx
        = _bound (s.charIdx + -1) 0 (s.line.length : Int) := rfl
    have e2 : (stepState (keyStep s Key.left)).line = s.line := rfl
    rw [e1, e2]
    unfold _bound
    omega
  | right =>
    have e1 : (stepState (keyStep s Key.right)).charIdx
        = _bound (s.charIdx + 1) 0 (s.line.length : Int) := rfl
    have e2 : (stepState (keyStep s Key.right)).line = s.line := rfl
    rw [e1, e2]
    unfold _bound
    omega
  | backspace =>
    have e1 : stepState (keyStep s Key.backspace) = syncLast (doBackspace s) := rfl
    rw [e1, syncLast_charIdx, syncLast_line]
    unfold doBackspace
    split
    · simp only [List.length_append, List.length_take, List.length_drop]
      omega
    · exact ⟨h0, h1⟩
  | delete =>
    have e1 : stepState (keyStep s Key.delete) = syncLast (doDelete s) := rfl
    rw [e1, syncLast_charIdx, syncLast_line]
    unfold doDelete
    split
    · simp only [List.length_append, List.length_take, List.length_drop]
      omega
    · exact ⟨h0, h1⟩
  | interrupt => exact ⟨h0, h1⟩
  | endOfInput => exact ⟨h0, h1⟩
  | unknownEscape raw => exact ⟨h0, h1⟩
  | printable c =>
    have hc : 0 < c.length := by
      simp only [keyWF, Bool.not_eq_eq_eq_not, Bool.not_true] at hwf
      cases c with
      | nil => cases hwf
      | cons a l => simp
    have e1 : stepState (keyStep s (Key.printable c)) = syncLast (insertChar s c) := rfl
    rw [e1, syncLast_charIdx, syncLast_line]
    unfold insertChar
    simp only [List.length_append, List.length_take, List.length_drop]
    omega

theorem runKeys_charIdx (ks : List Key) (s : ReaderState)
    (hwf : ∀ k ∈ ks, keyWF k = true)
    (h0 : 0 ≤ s.charIdx) (h1 : s.charIdx ≤ (s.line.length : Int)) :
    0 ≤ (resultState (runKeys s ks)).charIdx ∧
      (resultState (runKeys s ks)).charIdx
        ≤ ((resultState (runKeys s ks)).line.length : Int) := by
  induction ks generalizing s with
  | nil => exact ⟨h0, h1⟩
  | cons k ks ih =>
    have hstep := stepState_keyStep_charIdx s k (hwf k (by simp)) h0 h1
    cases heq : keyStep s k with
    | cont s₂ =>
      rw [show runKeys s (k :: ks) = runKeys s₂ ks from by rw [runKeys, heq]]
      rw [heq] at hstep
      exact ih s₂ (fun x hx => hwf x (by simp [hx])) hstep.1 hstep.2
    | halt r =>
      rw [show runKeys s (k :: ks) = r from by rw [runKeys, heq]]
      rw [heq] at hstep
      exact hstep

theorem runKeys_accepted (ks : List Key) (s : ReaderState) {l : List Char}
    {s₂ : ReaderState} (h : runKeys s ks = .accepted l s₂) :
    l = s₂.line ∧ s₂.lines.getLast? = some l := by
  induction ks generalizing s with
  | nil => cases h
  | cons k ks ih =>
    cases k with
    | enter =>
      rw [runKeys, keyStep] at h
      injection h with h₃ h₄
      subst h₄
      subst h₃
      refine ⟨rfl, ?_⟩
      rw [syncLast_line, syncLast_lines]
      exact List.getLast?_concat _
    | up => exact ih _ h
    | down => exact ih _ h
    | left => exact ih _ h
    | right => exact ih _ h
    | backspace => exact ih _ h
    | delete => exact ih _ h
    | interrupt => cases h
    | endOfInput => cases h
    | unknownEscape raw => cases h
    | printable c => exact ih _ h

theorem runKeys_after_edits (ks₁ : List Key) (s : ReaderState) (rest : List Key)
    (h : ∀ x ∈ ks₁, isEditKey x = true) :
    ∃ s₂, runKeys s (ks₁ ++ rest) = runKeys s₂ rest := by
  induction ks₁ generalizing s with
  | nil => exact ⟨s, rfl⟩
  | cons k ks ih =>
    have hk : isEditKey k = true := h k (by simp)
    have hcont : ∃ s₃, keyStep s k = .cont s₃ := by
      cases k <;> simp [isEditKey] at hk <;> exact ⟨_, rfl⟩
    obtain ⟨s₃, hs₃⟩ := hcont
    obtain ⟨s₂, hs₂⟩ := ih s₃ (fun x hx => h x (by simp [hx]))
    refine ⟨s₂, ?_⟩
    rw [List.cons_append, runKeys, hs₃]
    exact hs₂

theorem readEvents_init (past : List (List Char)) (ks : List Key) :
    readEvents (initReader past) ks
      = runKeys ⟨past ++ [[]], [], (past.length : Int), 0, true⟩ ks := rfl

/-! ### Claims -/

/-- C1, counterexample: with prior history foo, the key events ArrowUp,
x, Enter leave the active index at 0, return the line foox, and the
history entry at the active index still holds foo, not the returned
line.  The returned line therefore does not equal the entry at the
active index. -/
theorem read_returns_edited_last_not_active_cex :
    readEvents (initReader [['f', 'o', 'o']])
        [Key.up, Key.printable ['x'], Key.enter]
      = .accepted ['f', 'o', 'o', 'x']
          ⟨[['f', 'o', 'o'], ['f', 'o', 'o', 'x']], ['f', 'o', 'o', 'x'], 0, 4, true⟩ ∧
    pyGet [['f', 'o', 'o'], ['f', 'o', 'o', 'x']] 0 = ['f', 'o', 'o'] ∧
    (['f', 'o', 'o'] : List Char) ≠ ['f', 'o', 'o', 'x'] := by
  refine ⟨by decide, by decide, by decide⟩

/-- C1, amended: when a read session over any key events accepts, the
returned value is the final buffer line, and it equals the final content
of the last (newest) history entry, the one the session appended, not in
general the entry at the active index. -/
theorem read_accepted_returns_last_entry (past : List (List Char)) (ks : List Key)
    {l : List Char} {s₂ : ReaderState}
    (h : readEvents (initReader past) ks = .accepted l s₂) :
    l = s₂.line ∧ s₂.lines.getLast? = some l := by
  rw [readEvents_init] at h
  exact runKeys_accepted ks _ h

theorem read_accepted_returns_last_entry_witness :
    ([] : List Char) = (ReaderState.mk [[]] [] 0 0 true).line ∧
      (ReaderState.mk [[]] [] 0 0 true).lines.getLast? = some ([] : List Char) :=
  read_accepted_returns_last_entry [] [Key.enter] (by decide)

/-- C2, counterexample: with prior history foo, after ArrowUp the active
index is 0, yet the single editing key x overwrites the entry at index
1, an entry other than the active one, from empty to foox. -/
theorem editing_overwrites_last_entry_cex :
    readEvents (initReader [['f', 'o', 'o']]) [Key.up, Key.printable ['x']]
      = .blocked
          ⟨[['f', 'o', 'o'], ['f', 'o', 'o', 'x']], ['f', 'o', 'o', 'x'], 0, 4, true⟩ ∧
    (initReader [['f', 'o', 'o']]).lines = [['f', 'o', 'o'], []] ∧
    pyGet [['f', 'o', 'o'], ['f', 'o', 'o', 'x']] 1
      ≠ pyGet [['f', 'o', 'o'], []] 1 := by
  refine ⟨by decide, by decide, by decide⟩

/-- C2, amended: during a single read session, for every sequence of key
events, every history entry other than the one at the last index keeps
its value unchanged; only the last entry (the one the session appended)
is ever overwritten in place by editing keys. -/
theorem session_preserves_all_but_last_entry (past : List (List Char)) (ks : List Key) :
    (resultState (readEvents (initReader past) ks)).lines.length = past.length + 1 ∧
    (resultState (readEvents (initReader past) ks)).lines.dropLast = past := by
  rw [readEvents_init]
  obtain ⟨t, ht⟩ :=
    runKeys_lines ks ⟨past ++ [[]], [], (past.length : Int), 0, true⟩ (by simp)
  have hb : (ReaderState.mk (past ++ [[]]) [] (past.length : Int) 0 true).lines.dropLast
      = past := List.dropLast_concat
  rw [hb] at ht
  rw [ht]
  exact ⟨by simp, List.dropLast_concat⟩

/-- C3: for every sequence of key events whose printable payloads are
nonempty (as the decoder guarantees), the cursor satisfies
0 ≤ charIdx ≤ length of the buffer line in the state the session ends
in; since the event list is arbitrary, this covers the state after every
step. -/
theorem cursor_stays_in_range (past : List (List Char)) (ks : List Key)
    (hwf : ∀ k ∈ ks, keyWF k = true) :
    0 ≤ (resultState (readEvents (initReader past) ks)).charIdx ∧
      (resultState (readEvents (initReader past) ks)).charIdx
        ≤ ((resultState (readEvents (initReader past) ks)).line.length : Int) := by
  rw [readEvents_init]
  exact runKeys_charIdx ks _ hwf le_rfl le_rfl

theorem cursor_stays_in_range_witness :
    (∀ k ∈ [Key.printable ['a'], Key.backspace, Key.backspace], keyWF k = true) ∧
    (0 ≤ (resultState (readEvents (initReader [])
        [Key.printable ['a'], Key.backspace, Key.backspace])).charIdx ∧
      (resultState (readEvents (initReader [])
          [Key.printable ['a'], Key.backspace, Key.backspace])).charIdx
        ≤ ((resultState (readEvents (initReader [])
            [Key.printable ['a'], Key.backspace, Key.backspace])).line.length : Int)) :=
  ⟨by decide,
   cursor_stays_in_range [] [Key.printable ['a'], Key.backspace, Key.backspace]
     (by decide)⟩

/-- C9: a fresh reader is unused; a first read call marks it used
whatever the key events and outcome are; a second read call on the
resulting reader fails with the usage error instead of starting another
session. -/
theorem reader_single_use (past : List (List Char)) (ks ks₂ : List Key) :
    (initReader past).used = false ∧
    (resultState (readEvents (initReader past) ks)).used = true ∧
    readEvents (resultState (readEvents (initReader past) ks)) ks₂
      = .usageError (resultState (readEvents (initReader past) ks)) := by
  have hu : (resultState (readEvents (initReader past) ks)).used = true := by
    rw [readEvents_init, runKeys_used]
  refine ⟨rfl, hu, ?_⟩
  generalize hgen : resultState (readEvents (initReader past) ks) = s₂ at hu
  rw [readEvents.eq_def, hu]
  rfl

/-- C4, counterexample: with prior history foo, after ArrowUp and
ArrowLeft the active index is 0 (the oldest) and the cursor is 2; a
further ArrowUp keeps the index at 0 but moves the cursor back to 3, the
end of the stored entry, so it is not a no-op on the cursor. -/
theorem arrow_at_boundary_not_noop_cex :
    readEvents (initReader [['f', 'o', 'o']]) [Key.up, Key.left]
      = .blocked ⟨[['f', 'o', 'o'], []], ['f', 'o', 'o'], 0, 2, true⟩ ∧
    readEvents (initReader [['f', 'o', 'o']]) [Key.up, Key.left, Key.up]
      = .blocked ⟨[['f', 'o', 'o'], []], ['f', 'o', 'o'], 0, 3, true⟩ := by
  refine ⟨by decide, by decide⟩

/-- C4, amended: ArrowUp at the oldest entry (and ArrowDown at the
newest) leaves the active index unchanged, but still replaces the buffer
with the stored entry at that index and resets the cursor to the end of
that entry; it is a no-op only when the buffer already equals the stored
entry and the cursor is already at its end. -/
theorem arrow_at_boundary_reloads_entry (s : ReaderState) (h : s.lines ≠ []) :
    (s.lineIdx = 0 →
      keyStep s Key.up
        = .cont { s with line := pyGet s.lines 0
                         charIdx := ((pyGet s.lines 0).length : Int) }) ∧
    (s.lineIdx = (s.lines.length : Int) - 1 →
      keyStep s Key.down
        = .cont { s with line := pyGet s.lines s.lineIdx
                         charIdx := ((pyGet s.lines s.lineIdx).length : Int) }) := by
  have hn : 0 < s.lines.length := List.length_pos.mpr h
  constructor
  · intro h0
    have hidx : _bound (s.lineIdx + -1) 0 ((s.lines.length : Int) - 1) = 0 := by
      unfold _bound; omega
    show StepResult.cont (moveLineDown s (-1)) = _
    unfold moveLineDown
    rw [hidx, h0]
  · intro h1
    have hidx : _bound (s.lineIdx + 1) 0 ((s.lines.length : Int) - 1) = s.lineIdx := by
      unfold _bound; omega
    show StepResult.cont (moveLineDown s 1) = _
    unfold moveLineDown
    rw [hidx]

theorem arrow_at_boundary_reloads_entry_witness :
    keyStep ⟨[['f', 'o', 'o'], []], ['f', 'o', 'o'], 0, 2, true⟩ Key.up
      = .cont { ReaderState.mk [['f', 'o', 'o'], []] ['f', 'o', 'o'] 0 2 true with
                  line := pyGet [['f', 'o', 'o'], []] 0
                  charIdx := ((pyGet [['f', 'o', 'o'], []] 0).length : Int) } ∧
    keyStep ⟨[['f', 'o', 'o'], []], [], 1, 0, true⟩ Key.down
      = .cont { ReaderState.mk [['f', 'o', 'o'], []] [] 1 0 true with
                  line := pyGet [['f', 'o', 'o'], []] 1
                  charIdx := ((pyGet [['f', 'o', 'o'], []] 1).length : Int) } :=
  ⟨(arrow_at_boundary_reloads_entry
      ⟨[['f', 'o', 'o'], []], ['f', 'o', 'o'], 0, 2, true⟩ (by decide)).1 (by decide),
   (arrow_at_boundary_reloads_entry
      ⟨[['f', 'o', 'o'], []], [], 1, 0, true⟩ (by decide)).2 (by decide)⟩

/-- C5: from any state at the newest history index whose last entry
agrees with the buffer (which holds whenever the in-progress text was
typed there, since every editing key writes the buffer into the last
entry), ArrowUp followed by ArrowDown restores the buffer to exactly
that in-progress text and the active index to the newest entry. -/
theorem up_down_restores_in_progress_line (s : ReaderState) (h : s.lines ≠ [])
    (h₂ : s.lineIdx = (s.lines.length : Int) - 1)
    (h₃ : s.lines.getLast? = some s.line) :
    (stepState (keyStep (stepState (keyStep s Key.up)) Key.down)).line = s.line ∧
    (stepState (keyStep (stepState (keyStep s Key.up)) Key.down)).lineIdx = s.lineIdx := by
  have hn : 0 < s.lines.length := List.length_pos.mpr h
  have e2 : stepState (keyStep (stepState (keyStep s Key.up)) Key.down)
      = moveLineDown (moveLineDown s (-1)) 1 := rfl
  rw [e2]
  have eidx1 : (moveLineDown s (-1)).lineIdx
      = _bound (s.lineIdx + -1) 0 ((s.lines.length : Int) - 1) := rfl
  have eidx2 : (moveLineDown (moveLineDown s (-1)) 1).lineIdx
      = _bound ((moveLineDown s (-1)).lineIdx + 1) 0 ((s.lines.length : Int) - 1) := rfl
  have hidx2 : (moveLineDown (moveLineDown s (-1)) 1).lineIdx
      = (s.lines.length : Int) - 1 := by
    rw [eidx2, eidx1]
    unfold _bound
    omega
  have eline2 : (moveLineDown (moveLineDown s (-1)) 1).line
      = pyGet s.lines ((moveLineDown (moveLineDown s (-1)) 1).lineIdx) := rfl
  have hp : pyGet s.lines ((s.lines.length : Int) - 1) = s.line := by
    unfold pyGet
    rw [if_pos (by omega)]
    have ht : ((s.lines.length : Int) - 1).toNat = s.lines.length - 1 := by omega
    rw [ht, List.getD_eq_getElem?_getD, ← List.getLast?_eq_getElem?, h₃]
    rfl
  exact ⟨by rw [eline2, hidx2, hp], by rw [hidx2, h₂]⟩

theorem up_down_restores_in_progress_line_witness :
    (stepState (keyStep (stepState (keyStep
        (ReaderState.mk [['a'], ['b', 'c']] ['b', 'c'] 1 2 true) Key.up)) Key.down)).line
      = ['b', 'c'] ∧
    (stepState (keyStep (stepState (keyStep
        (ReaderState.mk [['a'], ['b', 'c']] ['b', 'c'] 1 2 true) Key.up)) Key.down)).lineIdx
      = 1 :=
  up_down_restores_in_progress_line
    ⟨[['a'], ['b', 'c']], ['b', 'c'], 1, 2, true⟩ (by decide) (by decide) (by decide)

/-- C6, counterexample: a session fed the newline byte then the carriage
return byte accepts the line consisting of that newline character: the
newline byte was inserted as a printable character, not treated as Enter;
and the newline byte alone does not terminate the session at all. -/
theorem newline_not_enter_cex :
    ReaderState.read (initReader []) ['\x0A', '\x0D']
      = .accepted ['\x0A'] ⟨[['\x0A']], ['\x0A'], 0, 1, true⟩ ∧
    ReaderState.read (initReader []) ['\x0A']
      = .blocked ⟨[['\x0A']], ['\x0A'], 0, 1, true⟩ := by
  constructor
  · calc ReaderState.read (initReader []) ['\x0A', '\x0D']
        = runChars ⟨[[]], [], 0, 0, true⟩ ['\x0A', '\x0D'] := rfl
      _ = runChars ⟨[['\x0A']], ['\x0A'], 0, 1, true⟩ ['\x0D'] :=
          runChars_of_cont ['\x0A'] ['\x0D'] (by decide) (by decide)
      _ = .accepted ['\x0A'] ⟨[['\x0A']], ['\x0A'], 0, 1, true⟩ :=
          runChars_of_halt ['\x0D'] [] (by decide) (by decide)
  · calc ReaderState.read (initReader []) ['\x0A']
        = runChars ⟨[[]], [], 0, 0, true⟩ ['\x0A'] := rfl
      _ = runChars ⟨[['\x0A']], ['\x0A'], 0, 1, true⟩ [] :=
          runChars_of_cont ['\x0A'] [] (by decide) (by decide)
      _ = .blocked ⟨[['\x0A']], ['\x0A'], 0, 1, true⟩ :=
          runChars_of_none (by decide)

/-- C6, amended: only the carriage return byte is classified as Enter
and terminates the session as Accepted; the newline byte is classified
as a printable key, and the loop inserts it into the buffer and
continues. -/
theorem enter_is_carriage_return_only :
    classifyKey CR = Key.enter ∧
    classifyKey ['\x0A'] = Key.printable ['\x0A'] ∧
    (∀ (s : ReaderState) (ks : List Key),
      runKeys s (Key.enter :: ks) = .accepted s.line (syncLast s)) ∧
    (∀ (s : ReaderState) (ks : List Key),
      runKeys s (Key.printable ['\x0A'] :: ks)
        = runKeys (syncLast (insertChar s ['\x0A'])) ks) :=
  ⟨by decide, by decide, fun s ks => rfl, fun s ks => rfl⟩

/-- C7, counterexample: the interrupt byte sent while an escape sequence
is pending is absorbed into the pending sequence, which can never
complete, so the session neither surfaces a cancellation nor returns a
line; it stays blocked in the decoder. -/
theorem interrupt_in_escape_blocks_cex :
    ReaderState.read (initReader []) ['\x1B', '\x03']
      = .blocked ⟨[[]], [], 0, 0, true⟩ := by
  calc ReaderState.read (initReader []) ['\x1B', '\x03']
      = runChars ⟨[[]], [], 0, 0, true⟩ ['\x1B', '\x03'] := rfl
    _ = .blocked ⟨[[]], [], 0, 0, true⟩ := runChars_of_none (by decide)

/-- C7, amended: the interrupt byte decoded as a standalone key maps to
the interrupt event, and after any prefix of editing keys that event
makes the session surface the interrupted outcome (so no line is
returned); the end-of-input byte likewise surfaces the distinct
end-of-input outcome, and the two outcomes are different for every pair
of states. -/
theorem interrupt_key_cancels :
    classifyKey INTERRUPT = Key.interrupt ∧
    classifyKey EOF = Key.endOfInput ∧
    (∀ (s : ReaderState) (ks₁ ks₂ : List Key), (∀ x ∈ ks₁, isEditKey x = true) →
      ∃ s₂, runKeys s (ks₁ ++ Key.interrupt :: ks₂) = .interrupted s₂) ∧
    (∀ (s : ReaderState) (ks₁ ks₂ : List Key), (∀ x ∈ ks₁, isEditKey x = true) →
      ∃ s₂, runKeys s (ks₁ ++ Key.endOfInput :: ks₂) = .endOfInput s₂) ∧
    (∀ s₁ s₂ : ReaderState, ReadResult.interrupted s₁ ≠ ReadResult.endOfInput s₂) := by
  refine ⟨by decide, by decide, ?_, ?_, ?_⟩
  · intro s ks₁ ks₂ hks
    obtain ⟨s₂, hs₂⟩ := runKeys_after_edits ks₁ s (Key.interrupt :: ks₂) hks
    exact ⟨s₂, by rw [hs₂]; rfl⟩
  · intro s ks₁ ks₂ hks
    obtain ⟨s₂, hs₂⟩ := runKeys_after_edits ks₁ s (Key.endOfInput :: ks₂) hks
    exact ⟨s₂, by rw [hs₂]; rfl⟩
  · intro s₁ s₂ hcon
    cases hcon

theorem interrupt_key_cancels_witness :
    (∃ s₂, runKeys (initReader []) ([Key.printable ['a']] ++ Key.interrupt :: [])
      = .interrupted s₂) ∧
    (∃ s₂, runKeys (initReader []) ([Key.printable ['a']] ++ Key.endOfInput :: [])
      = .endOfInput s₂) :=
  ⟨interrupt_key_cancels.2.2.1 (initReader []) [Key.printable ['a']] [] (by decide),
   interrupt_key_cancels.2.2.2.1 (initReader []) [Key.printable ['a']] [] (by decide)⟩

theorem intToString_pos {d : Int} (h : 0 < d) : toString d = d.toNat.repr := by
  cases d with
  | ofNat n => rfl
  | negSucc n => cases h

/-- C10: the relative cursor-motion primitive emits exactly ESC, an open
bracket, the decimal digits of the distance, and the final byte C for a
positive distance; ESC, open bracket, the digits of the negated
distance, and the final byte D for a negative one; and nothing at all
for distance zero. -/
theorem moveCursorRight_emits (d : Int) :
    (0 < d → _moveCursorRight d = "\x1B[" ++ d.toNat.repr ++ "C") ∧
    (d < 0 → _moveCursorRight d = "\x1B[" ++ (-d).toNat.repr ++ "D") ∧
    (d = 0 → _moveCursorRight d = "") := by
  refine ⟨fun h => ?_, fun h => ?_, fun h => ?_⟩
  · unfold _moveCursorRight
    rw [if_pos (by omega : d > 0), intToString_pos h]
  · unfold _moveCursorRight
    rw [if_neg (by omega : ¬d > 0), if_pos h, intToString_pos (by omega : (0 : Int) < -d)]
  · subst h
    rfl

theorem moveCursorRight_emits_witness :
    _moveCursorRight 3 = "\x1B[" ++ (3 : Int).toNat.repr ++ "C" ∧
    _moveCursorRight (-2) = "\x1B[" ++ (-(-2 : Int)).toNat.repr ++ "D" ∧
    _moveCursorRight 0 = "" :=
  ⟨(moveCursorRight_emits 3).1 (by decide),
   (moveCursorRight_emits (-2)).2.1 (by decide),
   (moveCursorRight_emits 0).2.2 rfl⟩
